import Mathlib

/-!
Shallow embedding of the `tsdb` in-memory time-series engine.

Sources:
* `shard.go` (package `tsdb`): `entry`, `partition`, `shard` — lock-striped
  value storage.  Locks are irrelevant to the sequential semantics modelled
  here and are dropped; a Go map is modelled by its lookup function
  `String → Option _`; a Go slice's capacity is carried explicitly as a `Nat`
  field because `partition.removeBefore` branches on `cap(e.values)`.
* the unnamed source file holding package `memtsdb` (windowed engine:
  `shardGroup`, `initTime`, `contains`, `have`, `tsdb.InsertPoints`,
  `tsdb.Query`) and package `tsdb` (generic engine: `WritePoints`, `Stop`,
  `gc`).  Timestamps (`time.Time`) and durations are modelled as `Int`
  nanoseconds; `time.Time.Round` is translated from its Go implementation
  (`div` remainder in `[0, d)`, halfway values round up).

Parts of the repository referenced by the sources but absent from the
provided files (the `MemShard` value/index store used by `memtsdb`, the
`Point.Series` key derivation and the `index` of the generic engine) are
modelled from the spec and marked `Modelled from the spec:` below.
-/

/-! ## Shared data: tags -/

/-- `Tag` from the shared data types: a key/value label. -/
structure Tag where
  key : String
  value : String
deriving DecidableEq

/-! ## shard.go: entry / partition / shard -/

/-- `Value[T]` from shard.go: a timestamp (`UnixNano`) and a payload. -/
structure GoValue (T : Type) where
  unixNano : Int
  v : T
deriving DecidableEq

/-- `entry[T]` from shard.go.  `values` is the stored slice; `cap` is the
capacity of its backing array, carried explicitly because
`partition.removeBefore` branches on `cap(e.values)`. -/
structure GoEntry (T : Type) where
  values : List (GoValue T)
  cap : Nat
deriving DecidableEq

/-- `newEntry` from shard.go: `make([]Value[T], 0, len(vs))` then append, so
the capacity equals `len(vs)`. -/
def newEntry (vs : List (GoValue T)) : GoEntry T :=
  ⟨vs, vs.length⟩

/-- `entry.add` from shard.go: append.  Go grows the backing array only when
the new length exceeds the capacity; the exact grown capacity is
implementation defined (at least the new length), and no claim reads it. -/
def GoEntry.add (e : GoEntry T) (vs : List (GoValue T)) : GoEntry T :=
  ⟨e.values ++ vs,
   if e.values.length + vs.length ≤ e.cap then e.cap
   else e.values.length + vs.length⟩

/-- `entry.removeBefore` from shard.go: rebuild into
`make([]Value[T], 0, len(e.values))` keeping values with
`v.UnixNano >= unixNano`; the resulting capacity is the old length. -/
def GoEntry.removeBefore (e : GoEntry T) (unixNano : Int) : GoEntry T :=
  ⟨e.values.filter (fun v => unixNano ≤ v.unixNano), e.values.length⟩

/-- `entry.valuesBetween` from shard.go: all values with
`min ≤ UnixNano ≤ max`, in stored order. -/
def GoEntry.valuesBetween (e : GoEntry T) (min max : Int) : List (GoValue T) :=
  e.values.filter (fun v => min ≤ v.unixNano && v.unixNano ≤ max)

/-- `partition[T]` from shard.go.  The Go map `store map[string]*entry[T]` is
modelled by its lookup function. -/
structure GoPartition (T : Type) where
  store : String → Option (GoEntry T)

/-- `newPartition` from shard.go: an empty map. -/
def newPartition (T : Type) : GoPartition T :=
  ⟨fun _ => none⟩

/-- `partition.write` from shard.go.  The double-checked locking collapses,
sequentially, to: append to the existing entry, else create a new one. -/
def GoPartition.write (p : GoPartition T) (key : String) (values : List (GoValue T)) :
    GoPartition T :=
  match p.store key with
  | some e => ⟨fun k => if k = key then some (e.add values) else p.store k⟩
  | none => ⟨fun k => if k = key then some (newEntry values) else p.store k⟩

/-- `partition.removeBefore` from shard.go: rebuild the map, calling
`entry.removeBefore` on every entry and dropping entries whose resulting
capacity (`cap(e.values)`) is zero. -/
def GoPartition.removeBefore (p : GoPartition T) (unixNano : Int) : GoPartition T :=
  ⟨fun k =>
    match p.store k with
    | none => none
    | some e =>
        let e2 := e.removeBefore unixNano
        if e2.cap ≠ 0 then some e2 else none⟩

/-- `partition.valuesBetween` from shard.go: lookup, then delegate; a missing
key yields `nil` (the empty list). -/
def GoPartition.valuesBetween (p : GoPartition T) (key : String) (min max : Int) :
    List (GoValue T) :=
  match p.store key with
  | none => []
  | some e => e.valuesBetween min max

/-- `_partitionNum` from shard.go. -/
def partitionNum : Nat := 16

/-- `shard[T]` from shard.go: a fixed ring of partitions. -/
structure GoShard (T : Type) where
  partitions : List (GoPartition T)

/-- `newShard` from shard.go: `_partitionNum` fresh partitions. -/
def newShard (T : Type) : GoShard T :=
  ⟨List.replicate partitionNum (newPartition T)⟩

/-- `shard.getPartitions` from shard.go:
`s.partitions[hash(key) % len(s.partitions)]`.  The external `xxhash.Sum64`
collaborator is a parameter; out-of-range indexing (a Go panic) surfaces as
`none`. -/
def GoShard.getPartitions (hash : String → Nat) (s : GoShard T) (key : String) :
    Option (GoPartition T) :=
  s.partitions.get? (hash key % s.partitions.length)

/-- The state change of writing through `getPartitions`: replace the selected
partition by its updated value.  An out-of-range index (impossible for shards
built by `newShard`, a Go panic otherwise) is a no-op here. -/
def GoShard.writeKey (hash : String → Nat) (s : GoShard T) (key : String)
    (values : List (GoValue T)) : GoShard T :=
  let i := hash key % s.partitions.length
  match s.partitions.get? i with
  | some p => ⟨s.partitions.set i (p.write key values)⟩
  | none => s

/-- `shard.writeMulti` from shard.go: fan each key of the batch out to its
partition.  The Go map argument is modelled as an association list. -/
def GoShard.writeMulti (hash : String → Nat) (s : GoShard T)
    (values : List (String × List (GoValue T))) : GoShard T :=
  values.foldl (fun sh kv => sh.writeKey hash kv.1 kv.2) s

/-- `shard.removeBefore` from shard.go: sweep every partition. -/
def GoShard.removeBefore (s : GoShard T) (unixNano : Int) : GoShard T :=
  ⟨s.partitions.map (fun p => p.removeBefore unixNano)⟩

/-! ## memtsdb: the windowed engine -/

/-- `_shardGroupDuration` from memtsdb: one minute, in nanoseconds. -/
def shardGroupDuration : Int := 60000000000

/-- `time.Time.Round` from the Go standard library, on nanosecond instants:
the remainder `r = t % d` lies in `[0, d)`; round down when `2r < d`, up
otherwise; non-positive durations leave `t` unchanged. -/
def goTimeRound (t d : Int) : Int :=
  if d ≤ 0 then t
  else if 2 * (t % d) < d then t - t % d else t + (d - t % d)

/-- `shardGroup.initTime` from memtsdb, returning the `(min, max)` window:
round `t`; if the rounded instant is at or after `t`, the window ends at the
rounded instant, otherwise it starts there. -/
def initTime (t round : Int) : Int × Int :=
  let rounded := goTimeRound t round
  if rounded - t ≥ 0 then (rounded - round, rounded) else (rounded, rounded + round)

/-- Modelled from the spec: the `Point` type of package memtsdb is not under
src/; per the spec a point carries a tag list, a timestamp and a payload
field (payload fixed to `Int` here; no claim depends on its type). -/
structure MemPoint where
  tags : List Tag
  time : Int
  field : Int
deriving DecidableEq

/-- Modelled from the spec: the `Shard` implementation (`MemShard`) used by
package memtsdb is not under src/ (only its tests are).  Per the spec it
stores inserted points in insertion order. -/
structure MemShard where
  values : List MemPoint
deriving DecidableEq

/-- Modelled from the spec: `MemShard.Insert` appends a point. -/
def MemShard.insert (s : MemShard) (p : MemPoint) : MemShard :=
  ⟨s.values ++ [p]⟩

/-- The match predicate of the shard query: carries the queried tag and lies
in the inclusive interval `qmin ≤ t ≤ qmax` (bounds inclusive, as in the
repository's tests). -/
def memMatch (tag : Tag) (qmin qmax : Int) (p : MemPoint) : Bool :=
  decide (tag ∈ p.tags) && decide (qmin ≤ p.time) && decide (p.time ≤ qmax)

/-- Modelled from the spec: `MemShard.Query` returns the matching stored
points in insertion order. -/
def MemShard.query (s : MemShard) (tag : Tag) (qmin qmax : Int) : List MemPoint :=
  s.values.filter (memMatch tag qmin qmax)

/-- `shardGroup` from memtsdb: a half-open window `[min, max)` plus a shard. -/
structure ShardGroup where
  min : Int
  max : Int
  shard : MemShard
deriving DecidableEq

/-- `newShardGroup` from memtsdb: a fresh empty shard with its window set by
`initTime`. -/
def newShardGroup (t round : Int) : ShardGroup :=
  ⟨(initTime t round).1, (initTime t round).2, ⟨[]⟩⟩

/-- `shardGroup.contains` from memtsdb: `min < t < max`, or `t = min`. -/
def ShardGroup.contains (g : ShardGroup) (t : Int) : Bool :=
  (decide (g.min < t) && decide (g.max > t)) || decide (g.min = t)

/-- The body of `shardGroup.have` from memtsdb, on raw window bounds: either
query bound strictly inside `(gmin, gmax)`, or `qmin = gmin` exactly. -/
def winHave (gmin gmax qmin qmax : Int) : Bool :=
  (decide (gmin < qmin) && decide (gmax > qmin))
    || (decide (gmin < qmax) && decide (gmax > qmax))
    || decide (gmin = qmin)

/-- `shardGroup.have` from memtsdb. -/
def ShardGroup.haveQ (g : ShardGroup) (qmin qmax : Int) : Bool :=
  winHave g.min g.max qmin qmax

/-- `tsdb` (the windowed engine) from memtsdb: retention duration, active
groups, and the pool of retired groups. -/
structure Tsdb where
  rd : Int
  sgs : List ShardGroup
  emptySgs : List ShardGroup
deriving DecidableEq

/-- `NewTSDB` from memtsdb. -/
def newTSDB (retentionDuration : Int) : Tsdb :=
  ⟨retentionDuration, [], []⟩

/-- The containment scan of `tsdb.getShardGroup`: insert the point into the
first active group whose interval contains its timestamp (`shardGroup.shard`
is a reference in Go, so inserting through the returned copy mutates the
group stored in `t.sgs`); `none` when no active group contains it. -/
def insertIntoGroups (p : MemPoint) : List ShardGroup → Option (List ShardGroup)
  | [] => none
  | g :: gs =>
      if g.contains p.time then some ({ g with shard := g.shard.insert p } :: gs)
      else (insertIntoGroups p gs).map (fun gs2 => g :: gs2)

/-- One iteration of the `tsdb.InsertPoints` loop: `getShardGroup` followed by
`sg.shard.Insert(point)`.  When no active group contains the timestamp,
`getShardGroup` pops the last pooled group and re-`initTime`s it (keeping its
shard), or allocates a fresh group when the pool is empty; either way the
group is appended to `t.sgs` and the point inserted into its shard. -/
def Tsdb.insertPoint (db : Tsdb) (p : MemPoint) : Tsdb :=
  match insertIntoGroups p db.sgs with
  | some sgs2 => { db with sgs := sgs2 }
  | none =>
      if db.emptySgs.isEmpty then
        let sg := newShardGroup p.time shardGroupDuration
        { db with sgs := db.sgs ++ [{ sg with shard := sg.shard.insert p }] }
      else
        let sg0 := (db.emptySgs.getLast?).getD (newShardGroup p.time shardGroupDuration)
        let sg : ShardGroup :=
          { sg0 with min := (initTime p.time shardGroupDuration).1,
                     max := (initTime p.time shardGroupDuration).2 }
        { db with emptySgs := db.emptySgs.dropLast,
                  sgs := db.sgs ++ [{ sg with shard := sg.shard.insert p }] }

/-- `tsdb.InsertPoints` from memtsdb. -/
def Tsdb.InsertPoints (db : Tsdb) (points : List MemPoint) : Tsdb :=
  points.foldl Tsdb.insertPoint db

/-- `tsdb.Query` from memtsdb: concatenate, over active groups in order, the
shard query results of every group passing the `have` overlap test. -/
def Tsdb.Query (db : Tsdb) (tag : Tag) (qmin qmax : Int) : List MemPoint :=
  (db.sgs.map (fun sg =>
    if sg.haveQ qmin qmax then sg.shard.query tag qmin qmax else [])).flatten

/-- The engine's public operations (the `TSDB` interface of memtsdb). -/
inductive MOp where
  | insertOp (points : List MemPoint)
  | queryOp (tag : Tag) (qmin qmax : Int)

/-- Apply one public operation; `Query` takes only a read lock and leaves the
state unchanged. -/
def Tsdb.applyMOp (db : Tsdb) : MOp → Tsdb
  | MOp.insertOp points => db.InsertPoints points
  | MOp.queryOp _ _ _ => db

/-- The state after a sequence of public operations on a fresh engine. -/
def runMOps (retentionDuration : Int) (ops : List MOp) : Tsdb :=
  ops.foldl Tsdb.applyMOp (newTSDB retentionDuration)

/-- The state after a sequence of `InsertPoints` calls on a fresh engine. -/
def runInserts (retentionDuration : Int) (batches : List (List MemPoint)) : Tsdb :=
  batches.foldl Tsdb.InsertPoints (newTSDB retentionDuration)

/-- The lower bound of the bucket-duration-aligned window containing `t`. -/
def bucketMin (t : Int) : Int := t - t % shardGroupDuration

/-- All points stored across a list of groups, in group-then-insertion order. -/
def groupsValues (sgs : List ShardGroup) : List MemPoint :=
  (sgs.map (fun g => g.shard.values)).flatten

/-- A well-formed active group: window aligned to the bucket duration, of
exact bucket width, holding only points of its own bucket. -/
def GoodGroup (g : ShardGroup) : Prop :=
  g.min % shardGroupDuration = 0 ∧ g.max = g.min + shardGroupDuration ∧
    ∀ p ∈ g.shard.values, bucketMin p.time = g.min

/-- Invariant tying an engine state to the list of points inserted so far. -/
def GoodInv (db : Tsdb) (pts : List MemPoint) : Prop :=
  db.emptySgs = [] ∧ (∀ g ∈ db.sgs, GoodGroup g) ∧
    (db.sgs.map ShardGroup.min).Nodup ∧ (groupsValues db.sgs).Perm pts

/-- The point predicate of the amended query claim: carries the tag, lies in
the inclusive query interval, and its bucket window passes `have`. -/
def fullMatch (tag : Tag) (qmin qmax : Int) (p : MemPoint) : Bool :=
  memMatch tag qmin qmax p
    && winHave (bucketMin p.time) (bucketMin p.time + shardGroupDuration) qmin qmax

/-- The sample tag a=b. -/
def tagAB : Tag := ⟨"a", "b"⟩

/-- Sample point at second 30, tagged a=b. -/
def pAt30s : MemPoint := ⟨[tagAB], 30000000000, 1⟩

/-- Sample point at second 60 (exactly on a bucket boundary), tagged a=b. -/
def pAt60s : MemPoint := ⟨[tagAB], 60000000000, 2⟩

/-- Sample point at second 70, tagged a=b. -/
def pAt70s : MemPoint := ⟨[tagAB], 70000000000, 3⟩

/-- Concrete sample entry used to witness the partition sweep theorem. -/
def c6SampleEntry : GoEntry Int := ⟨[⟨3, 7⟩], 1⟩

/-- Concrete sample partition holding `c6SampleEntry` under key `"cpu"`. -/
def c6SamplePartition : GoPartition Int :=
  ⟨fun k => if k = "cpu" then some c6SampleEntry else none⟩

/-! ## The generic engine (package tsdb) -/

/-- Modelled from the spec: the `Point[T]` type of the generic engine is not
under src/; per the spec it carries a tag set, a timestamp (modelled directly
as its `UnixNano` integer) and a generic payload field. -/
structure GPoint (T : Type) where
  tags : List Tag
  time : Int
  field : T

/-- Modelled from the spec: `Point.Series()` is not under src/; the spec
treats it as an opaque deterministic canonical key derived from the tag set,
empty exactly when the point carries no tags. -/
def GPoint.series (p : GPoint T) : String :=
  String.mk ((p.tags.map (fun tg => tg.key.data ++ ('=' :: tg.value.data) ++ [','])).flatten)

/-- The two error values of the generic engine (`ErrDBClosed`,
`ErrPointMissingTag`). -/
inductive GoErr where
  | ErrDBClosed
  | ErrPointMissingTag
deriving DecidableEq

/-- Modelled from the spec: the `index` type is not under src/; per the spec
it records the series currently known, keyed by series key, with their tag
sets. -/
structure GoIndex where
  series : List (String × List Tag)

/-- Modelled from the spec: `newIndex` creates an empty index. -/
def newIndex : GoIndex := ⟨[]⟩

/-- Modelled from the spec: `index.createSeriesIfNotExists` records each
series of the batch that the index does not hold yet. -/
def GoIndex.createSeriesIfNotExists (idx : GoIndex)
    (seriesTags : List (String × List Tag)) : GoIndex :=
  seriesTags.foldl
    (fun ix kv => if (ix.series.lookup kv.1).isSome then ix else ⟨ix.series ++ [kv]⟩)
    idx

/-- Append one value to the batch's per-series value map
(`values[s] = append(values[s], v)` on a Go map, modelled as an association
list). -/
def upsertAppend (m : List (String × List (GoValue T))) (s : String)
    (v : GoValue T) : List (String × List (GoValue T)) :=
  match m with
  | [] => [(s, [v])]
  | kv :: rest =>
      if kv.1 = s then (kv.1, kv.2 ++ [v]) :: rest
      else kv :: upsertAppend rest s v

/-- The validation/grouping loop of `WritePoints`: walk the batch, reject at
the first point whose series key is empty (`len(s) == 0`), otherwise collect
the per-series value batches and tag sets. -/
def collectBatch : List (GPoint T) → List (String × List Tag)
    → List (String × List (GoValue T))
    → Option (List (String × List Tag) × List (String × List (GoValue T)))
  | [], seriesTags, values => some (seriesTags, values)
  | p :: rest, seriesTags, values =>
      let s := p.series
      if s = "" then none
      else
        let values2 := upsertAppend values s ⟨p.time, p.field⟩
        let seriesTags2 :=
          if (seriesTags.lookup s).isSome then seriesTags
          else seriesTags ++ [(s, p.tags)]
        collectBatch rest seriesTags2 values2

/-- `TSDB[T]` of the generic engine: retention policy, closed flag, index and
value store.  The stop channel is represented here by the `isClosed` flag it
gates. -/
structure GTSDB (T : Type) where
  retentionPolicy : Int
  isClosed : Bool
  idx : GoIndex
  store : GoShard T

/-- `New` from the generic engine: open engine, fresh index and store. -/
def GTSDB.new (T : Type) (retentionPolicy : Int) : GTSDB T :=
  ⟨retentionPolicy, false, newIndex, newShard T⟩

/-- `TSDB.WritePoints`: reject when closed; validate and group the batch,
rejecting it whole when any point has an empty series key; otherwise update
the index and fan the grouped values into the store.  Returns the new state
and the error value (Go `nil` = `none`). -/
def GTSDB.WritePoints (hash : String → Nat) (db : GTSDB T)
    (points : List (GPoint T)) : GTSDB T × Option GoErr :=
  if db.isClosed then (db, some GoErr.ErrDBClosed)
  else
    match collectBatch points [] [] with
    | none => (db, some GoErr.ErrPointMissingTag)
    | some (seriesTags, values) =>
        ({ db with idx := db.idx.createSeriesIfNotExists seriesTags,
                   store := db.store.writeMulti hash values }, none)

/-- `TSDB.Stop`: signal the GC loop and mark the engine closed. -/
def GTSDB.Stop (db : GTSDB T) : GTSDB T :=
  { db with isClosed := true }

/-- One wake-up of the `gc` loop: after the stop signal the loop has
returned, so a closed engine is unchanged; otherwise values older than
`now - retentionPolicy` are removed from the store. -/
def GTSDB.gcSweep (db : GTSDB T) (now : Int) : GTSDB T :=
  if db.isClosed then db
  else { db with store := db.store.removeBefore (now - db.retentionPolicy) }

/-- The operations that can touch a generic engine after construction. -/
inductive GOp (T : Type) where
  | write (points : List (GPoint T))
  | stop
  | gcTick (now : Int)

/-- Apply one operation to the engine state. -/
def GTSDB.applyOp (hash : String → Nat) (db : GTSDB T) : GOp T → GTSDB T
  | GOp.write points => (GTSDB.WritePoints hash db points).1
  | GOp.stop => GTSDB.Stop db
  | GOp.gcTick now => GTSDB.gcSweep db now

/-- Apply a sequence of operations. -/
def GTSDB.applyOps (hash : String → Nat) (db : GTSDB T) (ops : List (GOp T)) :
    GTSDB T :=
  ops.foldl (fun d op => GTSDB.applyOp hash d op) db

/-- Sample invalid point (no tags) for the missing-tag witness. -/
def gBadPoint : GPoint Int := ⟨[], 5, 9⟩

/-- Sample valid point for the missing-tag witness. -/
def gGoodPoint : GPoint Int := ⟨[tagAB], 3, 4⟩

/-! ## Theorems -/

/-- C5: for every threshold, sweeping a partition twice retains, as observed
through `valuesBetween` at any key and any query interval, exactly what one
sweep retains: `partition.removeBefore` is idempotent. -/
theorem c5_removeBefore_idempotent (T : Type) (p : GoPartition T) (t : Int)
    (k : String) (qmin qmax : Int) :
    ((p.removeBefore t).removeBefore t).valuesBetween k qmin qmax
      = (p.removeBefore t).valuesBetween k qmin qmax := by
  unfold GoPartition.valuesBetween GoPartition.removeBefore GoEntry.removeBefore
  cases h : p.store k with
  | none => simp [h]
  | some e =>
      simp only [h]
      by_cases hlen : e.values.length = 0
      · simp [hlen]
      · simp only [hlen, if_pos, ne_eq, not_false_iff, if_true]
        by_cases hlen2 : (e.values.filter (fun v => t ≤ v.unixNano)).length = 0
        · simp only [hlen2, ite_false, not_true, ne_eq, not_not]
          simp [GoEntry.valuesBetween,
            List.eq_nil_of_length_eq_zero hlen2]
        · simp only [ne_eq, hlen2, not_false_iff, if_true]
          simp [GoEntry.valuesBetween, List.filter_filter]

/-- C6: after `partition.removeBefore(threshold)`, a surviving entry holds
exactly its previous values with timestamp ≥ threshold in original order; an
entry is dropped from the mapping exactly when its rebuilt capacity is zero,
which happens exactly when it was already empty before the sweep; and looking
a dropped key up through `valuesBetween` yields the empty result. -/
theorem c6_removeBefore_drops_empty (T : Type) (p : GoPartition T) (t : Int)
    (k : String) (e : GoEntry T) (h : p.store k = some e) :
    ((e.removeBefore t).cap = 0 ↔ e.values = [])
  ∧ (e.values = [] → (p.removeBefore t).store k = none)
  ∧ (e.values ≠ [] → (p.removeBefore t).store k = some (e.removeBefore t))
  ∧ (e.removeBefore t).values = e.values.filter (fun v => t ≤ v.unixNano)
  ∧ (e.values = [] → ∀ qmin qmax,
      (p.removeBefore t).valuesBetween k qmin qmax = []) := by
  refine ⟨?_, ?_, ?_, rfl, ?_⟩
  · simp [GoEntry.removeBefore, List.length_eq_zero]
  · intro hv
    simp [GoPartition.removeBefore, h, GoEntry.removeBefore, hv]
  · intro hv
    simp [GoPartition.removeBefore, h, GoEntry.removeBefore,
      List.length_eq_zero, hv]
  · intro hv qmin qmax
    simp [GoPartition.valuesBetween, GoPartition.removeBefore, h,
      GoEntry.removeBefore, hv]

/-- Witness for C6 at a concrete partition, key and threshold. -/
theorem c6_removeBefore_drops_empty_witness :
    ((c6SampleEntry.removeBefore 5).cap = 0 ↔ c6SampleEntry.values = [])
  ∧ (c6SampleEntry.values = [] →
      (c6SamplePartition.removeBefore 5).store "cpu" = none)
  ∧ (c6SampleEntry.values ≠ [] →
      (c6SamplePartition.removeBefore 5).store "cpu" = some (c6SampleEntry.removeBefore 5))
  ∧ (c6SampleEntry.removeBefore 5).values
      = c6SampleEntry.values.filter (fun v => 5 ≤ v.unixNano)
  ∧ (c6SampleEntry.values = [] → ∀ qmin qmax,
      (c6SamplePartition.removeBefore 5).valuesBetween "cpu" qmin qmax = []) :=
  c6_removeBefore_drops_empty Int c6SamplePartition 5 "cpu" c6SampleEntry (by decide)

/-- C10: every shard built by `newShard` has exactly 16 partitions, so the
modulus in `getPartitions` is never zero, the computed index is always in
bounds, and the partition lookup succeeds for every key and every hash
function. -/
theorem c10_getPartitions_safe (T : Type) (hash : String → Nat) (k : String) :
    (newShard T).partitions.length = 16
  ∧ (newShard T).partitions.length ≠ 0
  ∧ hash k % (newShard T).partitions.length < (newShard T).partitions.length
  ∧ ∃ p, (newShard T).getPartitions hash k = some p := by
  have hlen : (newShard T).partitions.length = 16 := by
    simp [newShard, partitionNum]
  refine ⟨hlen, by simp [hlen], ?_, ?_⟩
  · exact Nat.mod_lt _ (by simp [hlen])
  · have hb : hash k % (newShard T).partitions.length < (newShard T).partitions.length :=
      Nat.mod_lt _ (by simp [hlen])
    exact ⟨_, List.get?_eq_get hb⟩

/-- C4: `have` returns true exactly when the query's min falls strictly
inside the group's window, or the query's max falls strictly inside it, or
the query's min coincides with the group's min — and not on true interval
intersection. -/
theorem c4_have_characterisation (g : ShardGroup) (qmin qmax : Int) :
    g.haveQ qmin qmax = true ↔
      (g.min < qmin ∧ qmin < g.max) ∨ (g.min < qmax ∧ qmax < g.max)
        ∨ qmin = g.min := by
  simp only [ShardGroup.haveQ, winHave, Bool.or_eq_true, Bool.and_eq_true,
    decide_eq_true_eq, gt_iff_lt]
  omega

/-- Closed form of `initTime` for positive durations: the window is the
aligned bucket `[t - t % d, t - t % d + d)` except when `t` is an exact
multiple of `d`, where it is the preceding bucket `[t - d, t)`. -/
theorem initTime_eq (t d : Int) (hd : 0 < d) :
    initTime t d = if t % d = 0 then (t - d, t) else (t - t % d, t - t % d + d) := by
  have hr0 : 0 ≤ t % d := Int.emod_nonneg t (ne_of_gt hd)
  have hrd : t % d < d := Int.emod_lt_of_pos t hd
  unfold initTime goTimeRound
  dsimp only
  split_ifs <;>
    first
      | rfl
      | (exfalso; omega)
      | (simp only [Prod.mk.injEq]; omega)

/-- C2 fails as stated: with bucket duration 5 and timestamp 5 (an exact
multiple of the duration), `initTime` yields the window `[0, 5)`, which does
not contain the timestamp. -/
theorem c2_counterexample :
    ¬ ((initTime 5 5).1 ≤ 5 ∧ 5 < (initTime 5 5).2
        ∧ (initTime 5 5).2 - (initTime 5 5).1 = 5) := by
  decide

/-- C2 amended: for every timestamp `t` and positive duration `d`, the
`initTime` window has width exactly `d` and satisfies `min ≤ t ≤ max`;
`t < max` (so `t` lies in the half-open window) holds exactly when `t` is not
an exact multiple of `d` — when it is, the window is `[t - d, t)` and
excludes `t`. -/
theorem c2_initTime_window (t d : Int) (hd : 0 < d) :
    (initTime t d).2 - (initTime t d).1 = d
  ∧ (initTime t d).1 ≤ t ∧ t ≤ (initTime t d).2
  ∧ (t % d ≠ 0 → t < (initTime t d).2)
  ∧ (t % d = 0 → (initTime t d).2 = t) := by
  have hr0 : 0 ≤ t % d := Int.emod_nonneg t (ne_of_gt hd)
  have hrd : t % d < d := Int.emod_lt_of_pos t hd
  rw [initTime_eq t d hd]
  by_cases hr : t % d = 0
  · rw [if_pos hr]
    omega
  · rw [if_neg hr]
    omega

/-- Witness for the amended C2 at `t = 7`, `d = 5`. -/
theorem c2_initTime_window_witness :
    (initTime 7 5).2 - (initTime 7 5).1 = 5
  ∧ (initTime 7 5).1 ≤ 7 ∧ 7 ≤ (initTime 7 5).2
  ∧ ((7 : Int) % 5 ≠ 0 → 7 < (initTime 7 5).2)
  ∧ ((7 : Int) % 5 = 0 → (initTime 7 5).2 = 7) :=
  c2_initTime_window 7 5 (by decide)

/-- C3 fails as stated: inserting a point at second 30 and then one at
second 60 (an exact bucket boundary) creates two distinct active ShardGroups
with the identical window `[0, 60s)`; their intervals are not disjoint, and
the timestamp 0 is contained in both. -/
theorem c3_counterexample :
    ((runInserts 0 [[pAt30s], [pAt60s]]).sgs.map (fun g => (g.min, g.max)))
        = [(0, 60000000000), (0, 60000000000)]
  ∧ ((runInserts 0 [[pAt30s], [pAt60s]]).sgs.map (fun g => g.contains 0))
        = [true, true] := by
  constructor
  · decide
  · decide

/-- C1 fails as stated: the point at second 70 tagged a=b lies inside the
query interval `[0s, 200s]` and carries the queried tag, yet `Query` returns
nothing, because the point's group `[60s, 120s)` lies strictly inside the
query interval and so fails the `have` overlap test. -/
theorem c1_counterexample :
    Tsdb.Query (runInserts 0 [[pAt70s]]) tagAB 0 200000000000 = []
  ∧ memMatch tagAB 0 200000000000 pAt70s = true
  ∧ (runInserts 0 [[pAt70s]]).sgs.map (fun g => (g.min, g.max))
      = [(60000000000, 120000000000)] := by
  refine ⟨by decide, by decide, by decide⟩

/-- A single insert never pushes a group into the pool: with an empty pool it
stays empty. -/
theorem insertPoint_emptySgs (db : Tsdb) (p : MemPoint) (h : db.emptySgs = []) :
    (db.insertPoint p).emptySgs = [] := by
  unfold Tsdb.insertPoint
  cases hi : insertIntoGroups p db.sgs with
  | some sgs2 => simpa using h
  | none => simp [h]

/-- `InsertPoints` never pushes a group into the pool. -/
theorem insertPoints_emptySgs (points : List MemPoint) :
    ∀ (db : Tsdb), db.emptySgs = [] → (db.InsertPoints points).emptySgs = [] := by
  induction points with
  | nil => intro db h; exact h
  | cons p ps ih =>
      intro db h
      exact ih (db.insertPoint p) (insertPoint_emptySgs db p h)

/-- C9: in every state reachable through any sequence of `InsertPoints` and
`Query` calls on a fresh engine, the pool of retired ShardGroups
(`emptySgs`) is empty — no operation ever retires a group, so the
pooled-reuse branch of `getShardGroup` is never taken and every new group is
freshly allocated. -/
theorem c9_pool_always_empty (retentionDuration : Int) (ops : List MOp) :
    (runMOps retentionDuration ops).emptySgs = [] := by
  suffices h : ∀ (l : List MOp) (db : Tsdb), db.emptySgs = [] →
      (l.foldl Tsdb.applyMOp db).emptySgs = [] by
    exact h ops (newTSDB retentionDuration) rfl
  intro l
  induction l with
  | nil => intro db h; exact h
  | cons op rest ih =>
      intro db h
      cases op with
      | insertOp points => exact ih _ (insertPoints_emptySgs points db h)
      | queryOp tag qmin qmax => exact ih _ h

/-- The bucket lower bound is aligned to the bucket duration. -/
theorem bucketMin_emod (t : Int) : bucketMin t % shardGroupDuration = 0 := by
  unfold bucketMin shardGroupDuration
  omega

/-- For a duration-aligned group of exact bucket width, `contains` holds
exactly for the timestamps of the group's own bucket. -/
theorem contains_aligned (g : ShardGroup) (t : Int)
    (h1 : g.min % shardGroupDuration = 0)
    (h2 : g.max = g.min + shardGroupDuration) :
    g.contains t = true ↔ bucketMin t = g.min := by
  simp only [ShardGroup.contains, Bool.or_eq_true, Bool.and_eq_true,
    decide_eq_true_eq, gt_iff_lt, h2]
  unfold bucketMin
  unfold shardGroupDuration at h1 ⊢
  omega

/-- When the containment scan finds no group, no active group contains the
timestamp. -/
theorem insertIntoGroups_none (p : MemPoint) (sgs : List ShardGroup)
    (h : insertIntoGroups p sgs = none) :
    ∀ g ∈ sgs, g.contains p.time = false := by
  induction sgs with
  | nil => intro g hg; cases hg
  | cons g0 gs ih =>
      intro g hg
      unfold insertIntoGroups at h
      by_cases hc : g0.contains p.time = true
      · rw [if_pos hc] at h; cases h
      · rw [if_neg hc] at h
        rcases List.mem_cons.mp hg with hgg | hgg
        · subst hgg; exact Bool.eq_false_iff.mpr hc
        · exact ih (Option.map_eq_none'.mp h) g hgg

/-- When the containment scan finds a group, the point lands in the first
group containing its timestamp: the window bounds of all groups are
unchanged, well-formedness is preserved, and exactly one copy of the point is
added to the stored multiset. -/
theorem insertIntoGroups_spec (p : MemPoint) :
    ∀ (sgs sgs2 : List ShardGroup),
      insertIntoGroups p sgs = some sgs2 → (∀ g ∈ sgs, GoodGroup g) →
      sgs2.map ShardGroup.min = sgs.map ShardGroup.min
    ∧ (∀ g ∈ sgs2, GoodGroup g)
    ∧ (groupsValues sgs2).Perm (groupsValues sgs ++ [p]) := by
  intro sgs
  induction sgs with
  | nil => intro sgs2 h _; cases h
  | cons g0 gs ih =>
      intro sgs2 h hg
      unfold insertIntoGroups at h
      by_cases hc : g0.contains p.time = true
      · rw [if_pos hc] at h
        cases h
        obtain ⟨a1, a2, a3⟩ := hg g0 (List.mem_cons_self g0 gs)
        refine ⟨rfl, ?_, ?_⟩
        · intro g hmem
          rcases List.mem_cons.mp hmem with hgg | hgg
          · subst hgg
            refine ⟨a1, a2, ?_⟩
            intro q hq
            simp only [MemShard.insert, List.mem_append, List.mem_singleton] at hq
            rcases hq with hq | hq
            · exact a3 q hq
            · rw [hq]
              exact (contains_aligned g0 p.time a1 a2).mp hc
          · exact hg g (List.mem_cons_of_mem g0 hgg)
        · simp only [groupsValues, List.map_cons, List.flatten_cons, MemShard.insert]
          rw [List.append_assoc, List.append_assoc]
          exact List.Perm.append_left _ List.perm_append_comm
      · rw [if_neg hc] at h
        obtain ⟨gs2, hgs2, hcons⟩ := Option.map_eq_some'.mp h
        subst hcons
        obtain ⟨b1, b2, b3⟩ :=
          ih gs2 hgs2 (fun g hmem => hg g (List.mem_cons_of_mem g0 hmem))
        refine ⟨?_, ?_, ?_⟩
        · simp only [List.map_cons, b1]
        · intro g hmem
          rcases List.mem_cons.mp hmem with hgg | hgg
          · rw [hgg]; exact hg g0 (List.mem_cons_self g0 gs)
          · exact b2 g hgg
        · simp only [groupsValues, List.map_cons, List.flatten_cons]
          rw [List.append_assoc]
          exact List.Perm.append_left _ b3

/-- The bucket duration is positive. -/
theorem shardGroupDuration_pos : (0 : Int) < shardGroupDuration := by decide

/-- For a timestamp that is not an exact bucket multiple, `initTime` yields
exactly the aligned bucket containing it. -/
theorem initTime_of_not_boundary (t : Int) (hp : t % shardGroupDuration ≠ 0) :
    initTime t shardGroupDuration = (bucketMin t, bucketMin t + shardGroupDuration) := by
  rw [initTime_eq t shardGroupDuration shardGroupDuration_pos, if_neg hp]
  rfl

/-- One insert of a non-boundary point preserves the engine invariant and
adds the point to the recorded multiset. -/
theorem insertPoint_good (db : Tsdb) (p : MemPoint) (pts : List MemPoint)
    (hinv : GoodInv db pts) (hp : p.time % shardGroupDuration ≠ 0) :
    GoodInv (db.insertPoint p) (pts ++ [p]) := by
  obtain ⟨hes, hgood, hnodup, hperm⟩ := hinv
  unfold Tsdb.insertPoint
  cases hi : insertIntoGroups p db.sgs with
  | some sgs2 =>
      obtain ⟨m1, m2, m3⟩ := insertIntoGroups_spec p db.sgs sgs2 hi hgood
      refine ⟨hes, m2, ?_, ?_⟩
      · show (sgs2.map ShardGroup.min).Nodup
        rw [m1]; exact hnodup
      · exact m3.trans (List.Perm.append_right [p] hperm)
  | none =>
      rw [hes]
      simp only [List.isEmpty_nil, if_true]
      have hw := initTime_of_not_boundary p.time hp
      refine ⟨rfl, ?_, ?_, ?_⟩
      · intro g hmem
        rcases List.mem_append.mp hmem with hgl | hgr
        · exact hgood g hgl
        · rw [List.mem_singleton.mp hgr]
          refine ⟨?_, ?_, ?_⟩
          · show (initTime p.time shardGroupDuration).1 % shardGroupDuration = 0
            rw [hw]; exact bucketMin_emod p.time
          · show (initTime p.time shardGroupDuration).2
              = (initTime p.time shardGroupDuration).1 + shardGroupDuration
            rw [hw]
          · intro q hq
            show bucketMin q.time = (initTime p.time shardGroupDuration).1
            simp only [newShardGroup, MemShard.insert, List.nil_append,
              List.mem_singleton] at hq
            rw [hq, hw]
      · show ((db.sgs ++ [_]).map ShardGroup.min).Nodup
        rw [List.map_append, List.nodup_append]
        refine ⟨hnodup, List.nodup_singleton _, ?_⟩
        intro m hml hmr
        simp only [List.map_cons, List.map_nil, List.mem_singleton] at hmr
        obtain ⟨g, hgmem, hgmin⟩ := List.mem_map.mp hml
        have hgg := hgood g hgmem
        have hcont : g.contains p.time = true := by
          refine (contains_aligned g p.time hgg.1 hgg.2.1).mpr ?_
          rw [hgmin, hmr]
          show bucketMin p.time = (initTime p.time shardGroupDuration).1
          rw [hw]
        have hfalse := insertIntoGroups_none p db.sgs hi g hgmem
        rw [hcont] at hfalse
        cases hfalse
      · show (groupsValues (db.sgs ++ [_])).Perm (pts ++ [p])
        unfold groupsValues
        rw [List.map_append, List.flatten_append]
        simp only [List.map_cons, List.map_nil, List.flatten_cons,
          List.flatten_nil, List.append_nil, newShardGroup, MemShard.insert,
          List.nil_append]
        exact List.Perm.append_right [p] hperm

/-- Folding non-boundary inserts preserves the invariant, extending the
recorded multiset by the inserted points. -/
theorem foldl_insertPoint_good :
    ∀ (points : List MemPoint) (db : Tsdb) (acc : List MemPoint),
      GoodInv db acc → (∀ p ∈ points, p.time % shardGroupDuration ≠ 0) →
      GoodInv (points.foldl Tsdb.insertPoint db) (acc ++ points) := by
  intro points
  induction points with
  | nil => intro db acc h _; simpa using h
  | cons p ps ih =>
      intro db acc h hall
      have h1 := insertPoint_good db p acc h (hall p (List.mem_cons_self p ps))
      have h2 := ih (db.insertPoint p) (acc ++ [p]) h1
        (fun q hq => hall q (List.mem_cons_of_mem p hq))
      simpa [List.append_assoc] using h2

/-- A sequence of `InsertPoints` calls is the pointwise fold of the
concatenated batches. -/
theorem runInserts_eq (retentionDuration : Int) (batches : List (List MemPoint)) :
    runInserts retentionDuration batches
      = batches.flatten.foldl Tsdb.insertPoint (newTSDB retentionDuration) := by
  unfold runInserts
  suffices h : ∀ (bs : List (List MemPoint)) (db : Tsdb),
      bs.foldl Tsdb.InsertPoints db = bs.flatten.foldl Tsdb.insertPoint db by
    exact h batches _
  intro bs
  induction bs with
  | nil => intro db; rfl
  | cons b rest ih =>
      intro db
      simp only [List.foldl_cons, List.flatten_cons, List.foldl_append,
        Tsdb.InsertPoints]
      exact ih _

/-- Every state reached by `InsertPoints` sequences of non-boundary points
satisfies the engine invariant. -/
theorem runInserts_good (retentionDuration : Int) (batches : List (List MemPoint))
    (h : ∀ p ∈ batches.flatten, p.time % shardGroupDuration ≠ 0) :
    GoodInv (runInserts retentionDuration batches) batches.flatten := by
  rw [runInserts_eq]
  have h0 : GoodInv (newTSDB retentionDuration) [] :=
    ⟨rfl, fun g hg => absurd hg (List.not_mem_nil g), List.nodup_nil,
      List.Perm.refl []⟩
  simpa using foldl_insertPoint_good batches.flatten (newTSDB retentionDuration) [] h0 h

/-- Two well-formed groups with different window starts contain no common
timestamp. -/
theorem goodGroups_disjoint (a b : ShardGroup) (ha : GoodGroup a) (hb : GoodGroup b)
    (hne : a.min ≠ b.min) (t : Int) :
    ¬ (a.contains t = true ∧ b.contains t = true) := by
  rintro ⟨hca, hcb⟩
  have h1 := (contains_aligned a t ha.1 ha.2.1).mp hca
  have h2 := (contains_aligned b t hb.1 hb.2.1).mp hcb
  exact hne (h1 ▸ h2 ▸ rfl)

/-- A list of pairwise timestamp-disjoint groups has at most one group
containing any given timestamp. -/
theorem filter_contains_length_le_one (t : Int) :
    ∀ (sgs : List ShardGroup),
      sgs.Pairwise (fun a b => ∀ s : Int,
        ¬ (a.contains s = true ∧ b.contains s = true)) →
      (sgs.filter (fun g => g.contains t)).length ≤ 1 := by
  intro sgs
  induction sgs with
  | nil => intro _; simp
  | cons g gs ih =>
      intro hpw
      obtain ⟨hrel, htail⟩ := List.pairwise_cons.mp hpw
      by_cases hc : g.contains t = true
      · rw [List.filter_cons_of_pos (by simpa using hc)]
        have hrest : gs.filter (fun g2 => g2.contains t) = [] := by
          rw [List.filter_eq_nil_iff]
          intro g2 hg2
          intro hcg2
          exact hrel g2 hg2 t ⟨hc, by simpa using hcg2⟩
        rw [hrest]
        simp
      · rw [List.filter_cons_of_neg (by simpa using hc)]
        exact ih htail

/-- C3 amended: for every state reachable by `InsertPoints` calls in which no
inserted timestamp is an exact multiple of the bucket duration, the intervals
of any two distinct active ShardGroups are disjoint and any timestamp is
contained in at most one active group.  (Inserting a timestamp that is an
exact bucket multiple violates this: `initTime` then produces a window
excluding the timestamp, and a duplicate group with an identical window can
be created, as the counterexample shows.) -/
theorem c3_groups_disjoint (retentionDuration : Int) (batches : List (List MemPoint))
    (h : ∀ p ∈ batches.flatten, p.time % shardGroupDuration ≠ 0) :
    (runInserts retentionDuration batches).sgs.Pairwise
      (fun a b => ∀ t : Int, ¬ (a.contains t = true ∧ b.contains t = true))
  ∧ ∀ t : Int,
      (((runInserts retentionDuration batches).sgs.filter
        (fun g => g.contains t)).length ≤ 1) := by
  obtain ⟨hes, hgood, hnodup, hperm⟩ := runInserts_good retentionDuration batches h
  have hpw : (runInserts retentionDuration batches).sgs.Pairwise
      (fun a b => ∀ t : Int, ¬ (a.contains t = true ∧ b.contains t = true)) := by
    have hne : (runInserts retentionDuration batches).sgs.Pairwise
        (fun a b => a.min ≠ b.min) := by
      have := (List.pairwise_map (f := ShardGroup.min)
        (l := (runInserts retentionDuration batches).sgs)
        (R := fun a b => a ≠ b)).mp hnodup
      exact this
    refine List.Pairwise.imp_of_mem ?_ hne
    intro a b hma hmb hne t
    exact goodGroups_disjoint a b (hgood a hma) (hgood b hmb) hne t
  exact ⟨hpw, fun t => filter_contains_length_le_one t _ hpw⟩

/-- Witness for the amended C3 on concrete non-boundary inserts. -/
theorem c3_groups_disjoint_witness :
    (runInserts 0 [[pAt30s], [pAt70s]]).sgs.Pairwise
      (fun a b => ∀ t : Int, ¬ (a.contains t = true ∧ b.contains t = true))
  ∧ ∀ t : Int,
      (((runInserts 0 [[pAt30s], [pAt70s]]).sgs.filter
        (fun g => g.contains t)).length ≤ 1) :=
  c3_groups_disjoint 0 [[pAt30s], [pAt70s]] (by decide)

/-- For a well-formed group, the queried-or-skipped contribution equals a
filter of the group's stored points by the point-level predicate: inside one
group the bucket window coincides with the group window, so the `have` test
is a per-point fact. -/
theorem group_query_eq (g : ShardGroup) (hg : GoodGroup g) (tag : Tag)
    (qmin qmax : Int) :
    (if g.haveQ qmin qmax then g.shard.query tag qmin qmax else [])
      = g.shard.values.filter (fullMatch tag qmin qmax) := by
  obtain ⟨h1, h2, h3⟩ := hg
  by_cases hh : g.haveQ qmin qmax = true
  · rw [if_pos hh]
    unfold MemShard.query
    apply List.filter_congr
    intro p hp
    unfold fullMatch
    rw [h3 p hp, ← h2]
    have hwin : winHave g.min g.max qmin qmax = true := hh
    rw [hwin, Bool.and_true]
  · rw [if_neg hh]
    symm
    rw [List.filter_eq_nil_iff]
    intro p hp
    unfold fullMatch
    rw [h3 p hp, ← h2]
    have hwin : winHave g.min g.max qmin qmax = false := Bool.eq_false_iff.mpr hh
    rw [hwin, Bool.and_false]
    exact Bool.false_ne_true

/-- Flattening per-list filters equals filtering the flattened list. -/
theorem flatten_map_filter (q : MemPoint → Bool) :
    ∀ (ls : List (List MemPoint)),
      (ls.map (List.filter q)).flatten = ls.flatten.filter q := by
  intro ls
  induction ls with
  | nil => rfl
  | cons a rest ih =>
      simp only [List.map_cons, List.flatten_cons, List.filter_append, ih]

/-- On any invariant-satisfying state, `Query` returns a permutation of the
inserted points filtered by tag, inclusive range, and the bucket-level `have`
test. -/
theorem query_of_goodInv (db : Tsdb) (pts : List MemPoint) (hinv : GoodInv db pts)
    (tag : Tag) (qmin qmax : Int) :
    (db.Query tag qmin qmax).Perm (pts.filter (fullMatch tag qmin qmax)) := by
  obtain ⟨hes, hgood, hnodup, hperm⟩ := hinv
  unfold Tsdb.Query
  have hmap : db.sgs.map
        (fun sg => if sg.haveQ qmin qmax then sg.shard.query tag qmin qmax else [])
      = db.sgs.map (fun sg => sg.shard.values.filter (fullMatch tag qmin qmax)) :=
    List.map_congr_left (fun g hg => group_query_eq g (hgood g hg) tag qmin qmax)
  rw [hmap]
  have hcomp : db.sgs.map (fun sg => sg.shard.values.filter (fullMatch tag qmin qmax))
      = (db.sgs.map (fun sg => sg.shard.values)).map
          (List.filter (fullMatch tag qmin qmax)) := by
    rw [List.map_map]
    rfl
  rw [hcomp, flatten_map_filter]
  exact List.Perm.filter _ hperm

/-- C1 amended: provided no inserted timestamp is an exact multiple of the
bucket duration, `Query(tag, qmin, qmax)` returns exactly (up to order across
groups) the inserted points that carry the tag, lie in the inclusive query
interval, and whose bucket window passes the `have` overlap test; matching
points whose bucket window fails `have` — a bucket lying strictly inside the
query interval — are missed, as the counterexample shows. -/
theorem c1_query_have_filtered (retentionDuration : Int)
    (batches : List (List MemPoint)) (tag : Tag) (qmin qmax : Int)
    (h : ∀ p ∈ batches.flatten, p.time % shardGroupDuration ≠ 0) :
    (Tsdb.Query (runInserts retentionDuration batches) tag qmin qmax).Perm
      (batches.flatten.filter (fullMatch tag qmin qmax)) :=
  query_of_goodInv _ _ (runInserts_good retentionDuration batches h) tag qmin qmax

/-- Witness for the amended C1 on concrete inserts and a concrete query. -/
theorem c1_query_have_filtered_witness :
    (Tsdb.Query (runInserts 0 [[pAt30s], [pAt70s]]) tagAB 0 100000000000).Perm
      (([[pAt30s], [pAt70s]] : List (List MemPoint)).flatten.filter
        (fullMatch tagAB 0 100000000000)) :=
  c1_query_have_filtered 0 [[pAt30s], [pAt70s]] tagAB 0 100000000000 (by decide)

/-- A series key is empty exactly when the point carries no tags. -/
theorem series_empty_iff (T : Type) (p : GPoint T) :
    p.series = "" ↔ p.tags = [] := by
  unfold GPoint.series
  cases htags : p.tags with
  | nil =>
      simp only [List.map_nil, List.flatten_nil]
  | cons tg rest =>
      simp only [List.map_cons, List.flatten_cons]
      constructor
      · intro h
        have hd := congrArg String.data h
        simp at hd
      · intro h
        exact absurd h (List.cons_ne_nil tg rest)

/-- The grouping loop rejects every batch containing a tagless point,
whatever has been accumulated so far. -/
theorem collectBatch_none (T : Type) :
    ∀ (points : List (GPoint T)) (seriesTags : List (String × List Tag))
      (values : List (String × List (GoValue T))),
      (∃ p ∈ points, p.tags = []) →
      collectBatch points seriesTags values = none := by
  intro points
  induction points with
  | nil =>
      intro st vals h
      obtain ⟨p, hp, _⟩ := h
      cases hp
  | cons p rest ih =>
      intro st vals h
      obtain ⟨q, hq, hqt⟩ := h
      rcases List.mem_cons.mp hq with hqq | hqq
      · have hs : p.series = "" := (series_empty_iff T p).mpr (by rw [← hqq]; exact hqt)
        simp [collectBatch, hs]
      · by_cases hs : p.series = ""
        · simp [collectBatch, hs]
        · simp only [collectBatch, hs, if_false]
          exact ih _ _ ⟨q, hqq, hqt⟩

/-- C7: on an open engine, a batch containing any point with an empty series
key (no tags) is rejected whole with the missing-tag error, and neither the
index nor the value store is mutated — not even by valid points preceding
the invalid one. -/
theorem c7_missing_tag_rejects_batch (T : Type) (hash : String → Nat)
    (db : GTSDB T) (points : List (GPoint T)) (hopen : db.isClosed = false)
    (hbad : ∃ p ∈ points, p.tags = []) :
    GTSDB.WritePoints hash db points = (db, some GoErr.ErrPointMissingTag) := by
  unfold GTSDB.WritePoints
  rw [hopen]
  simp only [Bool.false_eq_true, if_false]
  rw [collectBatch_none T points [] [] hbad]

/-- Witness for C7: a fresh engine, a batch holding a valid point followed by
a tagless one. -/
theorem c7_missing_tag_rejects_batch_witness :
    GTSDB.WritePoints (fun _ => 0) (GTSDB.new Int 10) [gGoodPoint, gBadPoint]
      = (GTSDB.new Int 10, some GoErr.ErrPointMissingTag) :=
  c7_missing_tag_rejects_batch Int (fun _ => 0) (GTSDB.new Int 10)
    [gGoodPoint, gBadPoint] rfl
    ⟨gBadPoint, List.mem_cons_of_mem gGoodPoint (List.mem_cons_self gBadPoint []), rfl⟩

/-- Writing to a closed engine is rejected with `ErrDBClosed`, the state
untouched. -/
theorem writePoints_closed (T : Type) (hash : String → Nat) (db : GTSDB T)
    (points : List (GPoint T)) (h : db.isClosed = true) :
    GTSDB.WritePoints hash db points = (db, some GoErr.ErrDBClosed) := by
  unfold GTSDB.WritePoints
  rw [h]
  rfl

/-- No single operation clears the closed flag. -/
theorem applyOp_isClosed (T : Type) (hash : String → Nat) (db : GTSDB T)
    (op : GOp T) (h : db.isClosed = true) :
    (GTSDB.applyOp hash db op).isClosed = true := by
  cases op with
  | write points =>
      show (GTSDB.WritePoints hash db points).1.isClosed = true
      rw [writePoints_closed T hash db points h]
      exact h
  | stop => rfl
  | gcTick now =>
      show (GTSDB.gcSweep db now).isClosed = true
      simp [GTSDB.gcSweep, h]

/-- No sequence of operations clears the closed flag. -/
theorem applyOps_isClosed (T : Type) (hash : String → Nat) :
    ∀ (ops : List (GOp T)) (db : GTSDB T), db.isClosed = true →
      (GTSDB.applyOps hash db ops).isClosed = true := by
  intro ops
  induction ops with
  | nil => intro db h; exact h
  | cons op rest ih =>
      intro db h
      exact ih _ (applyOp_isClosed T hash db op h)

/-- C8: after `Stop()` the engine is closed forever: following any further
sequence of operations (writes, redundant stops, GC ticks), the engine is
still closed, and every `WritePoints` call on it returns the closed-engine
error and leaves the state — index and value store included — unchanged; no
operation reopens the engine. -/
theorem c8_closed_forever (T : Type) (hash : String → Nat) (db : GTSDB T)
    (ops : List (GOp T)) (points : List (GPoint T)) :
    (GTSDB.applyOps hash (GTSDB.Stop db) ops).isClosed = true
  ∧ GTSDB.WritePoints hash (GTSDB.applyOps hash (GTSDB.Stop db) ops) points
      = (GTSDB.applyOps hash (GTSDB.Stop db) ops, some GoErr.ErrDBClosed) := by
  have hclosed : (GTSDB.applyOps hash (GTSDB.Stop db) ops).isClosed = true :=
    applyOps_isClosed T hash ops (GTSDB.Stop db) rfl
  exact ⟨hclosed, writePoints_closed T hash _ points hclosed⟩
